import Mathlib

/-!
Verification of the Ariana CLI core (Rust sources under `cli/src/`) against its
natural-language specification. The Rust code is shallowly embedded: pure
functions become Lean functions, filesystem state becomes an explicit map from
path strings to contents, and fallible operations return `Option` / `Except`.
Rust string/byte indices are modelled over `List Char` (all inputs considered
are ASCII, so byte index = char index); a slice operation whose bounds are out
of range returns `none`, modelling the Rust panic.
-/

namespace Ariana

/-! ### Path-name helpers (Rust `std::path::Path::extension` / `file_name`) -/

/-- The final path component: the characters after the last `/`.
Models `Path::file_name` for ordinary relative/absolute paths. -/
def fileNameChars (l : List Char) : List Char :=
  (l.reverse.takeWhile (fun c => c ≠ '/')).reverse

/-- Extension of a file name, modelling Rust `Path::extension` on the final
component: the part after the last `.`; `none` when the name has no `.` or when
the only `.` is the leading character (hidden files such as `.gitignore`). -/
def extOfName (name : List Char) : Option (List Char) :=
  let tail := name.reverse.takeWhile (fun c => c ≠ '.')
  if tail.length = name.length then none
  else if tail.length + 1 = name.length then none
  else some tail.reverse

/-! ### Path classifier (`cli/src/utils.rs`) -/

/-- Skip list of `should_explore_directory` (utils.rs lines 21-38). -/
def explore_skip_list : List String :=
  ["node_modules", ".git", ".ariana", "dist", "build", "target",
   ".ariana_saved_traces", ".traces", "venv", "site-packages",
   "__pycache__", ".ariana-saved-traces"]

/-- `should_explore_directory` from utils.rs: not in the skip list, does not
contain a `.` and does not start with `_`. -/
def should_explore_directory (dir_name : String) : Bool :=
  !(explore_skip_list.contains dir_name)
    && !(dir_name.toList.contains '.')
    && !(dir_name.toList.head? = some '_' : Bool)

/-- Skip list of `should_copy_or_link_directory` (utils.rs lines 10-19). -/
def copy_or_link_skip_list : List String :=
  [".git", ".ariana", ".ariana_saved_traces", ".traces", ".ariana-saved-traces"]

/-- `should_copy_or_link_directory` from utils.rs. -/
def should_copy_or_link_directory (dir_name : String) : Bool :=
  !(copy_or_link_skip_list.contains dir_name)

/-- The extension list of `should_copy_not_link` (utils.rs line 48,
`unsafe_extensions` in the source). -/
def forcedCopyExts : List (List Char) :=
  ["html".toList, "htm".toList, "css".toList, "sass".toList,
   "scss".toList, "vue".toList, "svelte".toList]

/-- `should_copy_not_link` from utils.rs lines 40-57. The Rust function reads
`fs::metadata(path)` and unwraps it; the file's size is passed here as `size`
(call sites only pass existing files). It returns `true` for any file smaller
than 1 MiB, and otherwise `true` exactly when the lowercased extension is in
`forcedCopyExts`. -/
def should_copy_not_link (size : Nat) (path : String) : Bool :=
  if size < 1024 * 1024 then true
  else
    match extOfName (fileNameChars path.toList) with
    | some e => forcedCopyExts.contains (e.map Char.toLower)
    | none => false

/-- Outcome of mirroring one entry. -/
inductive MirrorAction where
  | symlinked
  | copied
deriving DecidableEq

/-- The file branch of `create_link_or_copy` (utils.rs lines 87-114): when
`should_copy_not_link` holds the file is copied with no symlink attempt;
otherwise a symlink is attempted (success modelled by the oracle `symlink_ok`)
with copy as the fallback. The second component records whether a symlink was
attempted. -/
def create_link_or_copy_file (size : Nat) (p : String) (symlink_ok : Bool) :
    MirrorAction × Bool :=
  if should_copy_not_link size p then (MirrorAction.copied, false)
  else if symlink_ok then (MirrorAction.symlinked, true)
  else (MirrorAction.copied, true)

/-! ### Trace extractor (`cli/src/main.rs`, `run_main` lines 205-252)

The stdout-reader loop scans one line at a time for `<trace id="...">...</trace>`
envelopes. Rust byte-slicing `&line[a..b]` panics when the bounds are out of
range or inverted; `sliceP` returns `none` in exactly those cases. JSON decoding
of a payload (`serde_json::from_str::<Trace>`) is abstracted as a `decode`
oracle; the source calls `.unwrap()` on its result, so a `none` from the oracle
is a panic. -/

/-- Index of the first occurrence of `pat` in `l` (Rust `str::find`). -/
def findSub (pat : List Char) : List Char → Option Nat
  | [] => if pat.isPrefixOf ([] : List Char) then some 0 else none
  | c :: tl =>
    if pat.isPrefixOf (c :: tl) then some 0
    else (findSub pat tl).map (· + 1)

/-- Rust slice `&l[a..b]`: `none` models the bounds panic. -/
def sliceP (l : List Char) (a b : Nat) : Option (List Char) :=
  if a ≤ b ∧ b ≤ l.length then some ((l.drop a).take (b - a)) else none

/-- The literal `<trace id=` searched for by the reader loop. -/
def traceOpenTag : List Char := "<trace id=".toList

/-- The literal `</trace>` searched for by the reader loop. -/
def traceCloseTag : List Char := "</trace>".toList

/-- Result of scanning one stdout line: either the loop finishes with the
processed (cleaned) text and the trace payloads sent to the shipper channel in
order, or the process aborts with a panic after having sent `sent`. -/
inductive ExtractOut (τ : Type) where
  | ok (processed : List Char) (sent : List τ)
  | aborted (sent : List τ)
deriving DecidableEq

/-- The per-line scanning loop of `run_main` (main.rs lines 206-247),
transcribed statement by statement. `fuel` only bounds the recursion; the
caller passes `line.length + 1`, which is ample because `current_pos` advances
by at least 8 (the length of `</trace>`) per iteration. -/
def extractLoop (decode : List Char → Option τ) (line : List Char) :
    Nat → List Char → List τ → Nat → ExtractOut τ
  | 0, _, sent, _ => ExtractOut.aborted sent
  | fuel + 1, processed, sent, current_pos =>
    match findSub traceOpenTag (line.drop current_pos) with
    | none =>
      -- loop exits; afterwards the residue `line[current_pos..]` is appended
      ExtractOut.ok (processed ++ line.drop current_pos) sent
    | some start_idx =>
      let absolute_start := current_pos + start_idx
      let processed := processed ++ (line.drop current_pos).take start_idx
      match findSub traceCloseTag (line.drop absolute_start) with
      | none =>
        -- no closing tag: push the rest, set current_pos to line length, break
        ExtractOut.ok (processed ++ line.drop absolute_start) sent
      | some end_idx =>
        let absolute_end := absolute_start + end_idx + 8
        match sliceP line absolute_start (absolute_start + 20) with
        | none => ExtractOut.aborted sent
        | some w1 =>
          match findSub ['"'] w1 with
          | none => extractLoop decode line fuel processed sent absolute_end
          | some id_start =>
            match sliceP line (absolute_start + id_start + 1)
                (absolute_start + 50) with
            | none => ExtractOut.aborted sent
            | some w2 =>
              match findSub ['"'] w2 with
              | none => extractLoop decode line fuel processed sent absolute_end
              | some id_end =>
                match sliceP line (absolute_start + id_start + id_end + 3)
                    (absolute_start + end_idx) with
                | none => ExtractOut.aborted sent
                | some trace_content =>
                  match decode trace_content with
                  | none => ExtractOut.aborted sent  -- serde_json unwrap panic
                  | some t =>
                    extractLoop decode line fuel processed (sent ++ [t])
                      absolute_end

/-- Scanning of one full stdout line by `run_main`. -/
def extract_line (decode : List Char → Option τ) (line : List Char) :
    ExtractOut τ :=
  extractLoop decode line (line.length + 1) [] [] 0

/-! ### Trace shipper (`cli/src/trace_watcher.rs`, `watch_traces`)

The `tokio::select!` event loop is embedded as a transition system. An event is
a 3-second interval tick, the receipt of one trace on the channel (with a
nondeterministic boolean telling whether `clear_start.elapsed() > 3s`), or the
stop signal, after which the loop breaks. `pushes` records, in order, the
record batches handed to `process_traces`, i.e. the bodies of the POSTs to the
push endpoint. -/

/-- `batch_size` of `watch_traces` (trace_watcher.rs line 14). -/
def batch_size : Nat := 50000

/-- An event consumed by one `tokio::select!` round of `watch_traces`. -/
inductive TraceEvent (τ : Type) where
  | tick
  | recv (t : τ) (elapsed_over_3s : Bool)
  | stop

/-- State of `watch_traces`: the in-memory buffer and the POST bodies sent so
far. -/
structure WatchState (τ : Type) where
  traces : List τ
  pushes : List (List τ)

/-- The drain split performed on stop (trace_watcher.rs lines 42-47): chunks
`traces[i*bs .. min((i+1)*bs, len)]` for `i` in `0 .. len/bs + 1`. -/
def drain_chunks (buf : List τ) : List (List τ) :=
  (List.range (buf.length / batch_size + 1)).map (fun i =>
    (buf.drop (i * batch_size)).take
      (Nat.min ((i + 1) * batch_size) buf.length - i * batch_size))

/-- One `tokio::select!` round of `watch_traces`. -/
def watch_step (st : WatchState τ) : TraceEvent τ → WatchState τ
  | TraceEvent.tick =>
    if st.traces.isEmpty then st
    else { traces := [], pushes := st.pushes ++ [st.traces] }
  | TraceEvent.recv t elapsed_over_3s =>
    let buf := st.traces ++ [t]
    if batch_size ≤ buf.length ∨ elapsed_over_3s = true then
      { traces := [], pushes := st.pushes ++ [buf] }
    else { st with traces := buf }
  | TraceEvent.stop =>
    if st.traces.isEmpty then st
    else { st with pushes := st.pushes ++ drain_chunks st.traces }

/-- The `watch_traces` loop run over a sequence of events; the loop breaks at
the first stop signal. -/
def watch_traces : List (TraceEvent τ) → WatchState τ → WatchState τ
  | [], st => st
  | TraceEvent.stop :: _, st => watch_step st TraceEvent.stop
  | e :: es, st => watch_traces es (watch_step st e)

/-! ### Instrumentation processor (`cli/src/processor.rs`)

Filesystem state is a map from path strings to file contents. The batch RPC
`instrument_files_batch` is abstracted as an oracle taking the batch index, the
source paths and the contents, and returning `none` for a failed call
(network error, non-2xx, JSON parse error) or `some slots` on success. A `none`
from a filesystem read models the corresponding `unwrap` panic. `rpcCalls`
records the `files_paths` of every batch RPC actually issued, and `backup`
models `.ariana/__ariana_backups.zip` as an ordered list of
(absolute source path, original content) entries (`none` = the zip file does
not exist). -/

/-- The on-disk state seen by the processor. -/
def FS : Type := String → Option String

/-- Write one file (`fs::write`). -/
def writeFS (fs : FS) (p c : String) : FS :=
  fun q => if q = p then some c else fs q

/-- State threaded through the processor. -/
structure ProcState where
  fs : FS
  backup : Option (List (String × String))
  rpcCalls : List (List String)

/-- `files_contents` of one batch (processor.rs lines 47-50):
`fs::read_to_string(src).unwrap()` for each source; `none` models the panic on
a missing file. -/
def readContents (fs : FS) : List (String × String) → Option (List String)
  | [] => some []
  | sd :: rest =>
    match fs sd.1, readContents fs rest with
    | some c, some cs => some (c :: cs)
    | _, _ => none

/-- Truncating three-way zip, modelling the nested iterator zips of
processor.rs lines 74-79. -/
def zip3 : List α → List β → List γ → List (α × β × γ)
  | x :: xs, y :: ys, z :: zs => (x, y, z) :: zip3 xs ys zs
  | _, _, _ => []

/-- The per-file write loop of one batch (processor.rs lines 74-105). Each item
is `((src, dest), original_content, maybe_instrumented_content)`; a `none` slot
falls back to the original content. In in-place mode the original bytes are
first appended to the backup archive keyed by the source path, then the source
is overwritten; otherwise the destination is written (directory creation is
implicit in the map model). The in-place call sites always supply a zip writer,
modelled by `Option.getD []`. -/
def writeLoop (is_inplace : Bool) :
    List ((String × String) × String × Option String) → ProcState → ProcState
  | [], st => st
  | (sd, orig, slot) :: rest, st =>
    let content := match slot with
      | some instrumented => instrumented
      | none => orig
    if is_inplace then
      writeLoop is_inplace rest
        { st with
          backup := some ((st.backup.getD []) ++ [(sd.1, orig)]),
          fs := writeFS st.fs sd.1 content }
    else
      writeLoop is_inplace rest { st with fs := writeFS st.fs sd.2 content }

/-- One iteration of the batch loop of `process_instrument_files_in_batches`
(processor.rs lines 37-106) on the batch with index `i`: read all contents,
issue the RPC, and either `continue` on failure (state unchanged apart from the
call log) or run the write loop on the zipped results. -/
def processBatch
    (rpc : Nat → List String → List String → Option (List (Option String)))
    (i : Nat) (is_inplace : Bool) (batch : List (String × String))
    (st : ProcState) : Option ProcState :=
  match readContents st.fs batch with
  | none => none
  | some contents =>
    let srcs := batch.map Prod.fst
    let st := { st with rpcCalls := st.rpcCalls ++ [srcs] }
    match rpc i srcs contents with
    | none => some st
    | some slots => some (writeLoop is_inplace (zip3 batch contents slots) st)

/-- The batch loop over all chunks, threading the `enumerate` index. -/
def processAllBatches
    (rpc : Nat → List String → List String → Option (List (Option String)))
    (is_inplace : Bool) :
    Nat → List (List (String × String)) → ProcState → Option ProcState
  | _, [], st => some st
  | i, b :: bs, st =>
    match processBatch rpc i is_inplace b st with
    | none => none
    | some st' => processAllBatches rpc is_inplace (i + 1) bs st'

/-- Sort key: the file's size as reported by `fs::metadata` (processor.rs
lines 28-35), i.e. the length of its content in the map model. The call sites
guarantee the file exists; `getD ""` stands for the `unwrap`. -/
def sizeKey (fs : FS) (sd : String × String) : Nat :=
  ((fs sd.1).getD "").length

/-- Stable insertion into a size-sorted list. -/
def insertSorted (fs : FS) (x : String × String) :
    List (String × String) → List (String × String)
  | [] => [x]
  | y :: ys =>
    if sizeKey fs x ≤ sizeKey fs y then x :: y :: ys
    else y :: insertSorted fs x ys

/-- The `files.sort_by(size ascending)` of processor.rs lines 28-35 (a stable
sort, modelled by stable insertion sort). -/
def sortBySize (fs : FS) (l : List (String × String)) :
    List (String × String) :=
  l.foldr (insertSorted fs) []

/-- `slice::chunks(n)`: maximal runs of `n` consecutive elements. The fuel is
the list length, which bounds the number of chunks for any `n ≥ 1`. -/
def chunksOfFuel (n : Nat) : Nat → List α → List (List α)
  | 0, _ => []
  | _, [] => []
  | fuel + 1, l => l.take n :: chunksOfFuel n fuel (l.drop n)

/-- `files.chunks(300)` etc. -/
def chunksOf (n : Nat) (l : List α) : List (List α) :=
  chunksOfFuel n l.length l

/-- `process_instrument_files_in_batches` (processor.rs lines 18-107): sort by
ascending size, chunk into batches of up to 300 files, process each batch. -/
def process_instrument_files_in_batches
    (rpc : Nat → List String → List String → Option (List (Option String)))
    (is_inplace : Bool) (files : List (String × String)) (st : ProcState) :
    Option ProcState :=
  processAllBatches rpc is_inplace 0 (chunksOf 300 (sortBySize st.fs files)) st

/-- The in-place branch of `process_items` (processor.rs lines 135-149):
create `.ariana/__ariana_backups.zip` (truncating: `backup := some []`) and run
the instrument batches in in-place mode. -/
def process_items_inplace
    (rpc : Nat → List String → List String → Option (List (Option String)))
    (files_to_instrument : List (String × String)) (st : ProcState) :
    Option ProcState :=
  process_instrument_files_in_batches rpc true files_to_instrument
    { st with backup := some [] }

/-- `restore_backup` (processor.rs lines 220-259): if the archive does not
exist, report the error without touching any file; otherwise write every
archive entry, in order, to the path stored as its key. The result pairs the
resulting on-disk state with the `Result`. -/
def restore_backup (st : ProcState) : ProcState × Except String Unit :=
  match st.backup with
  | none => (st, Except.error "Backup not found, could not restore.")
  | some entries =>
    ({ st with fs := entries.foldl (fun fs kv => writeFS fs kv.1 kv.2) st.fs },
      Except.ok ())

/-! ### Instrumentation client (`cli/src/instrumentation.rs`) -/

/-- `Path::parent` on a path string: `none` for the root or the empty path,
otherwise the directory part (the empty string for a bare file name). -/
def pathParent (p : String) : Option String :=
  if p = "" ∨ p = "/" then none
  else some (String.mk (((p.toList.reverse.dropWhile (fun c => c ≠ '/')).drop 1).reverse))

/-- `instrument_files_batch` (instrumentation.rs lines 14-91). The HTTP POST to
`instrument-batched` is abstracted by the `http` oracle; the second component
counts the HTTP requests performed. An empty `files_paths` returns `Ok(vec![])`
without issuing a request; otherwise the project root is derived from the first
path's parent and exactly one POST is made. -/
def instrument_files_batch (http : Except String (List (Option String)))
    (files_paths : List String) (files_contents : List String) :
    Except String (List (Option String)) × Nat :=
  if files_paths.isEmpty then (Except.ok [], 0)
  else
    match files_paths.head? with
    | none =>
      (Except.error "Cannot determine project root: files_paths list is empty.", 0)
    | some p0 =>
      match pathParent p0 with
      | none =>
        (Except.error "Cannot determine project root: path has no parent.", 0)
      | some _ =>
        let _ := files_contents
        (http, 1)

/-! ### Item collector (`cli/src/collector.rs`)

Paths are modelled as component lists (`List String`); `project_root` is the
component list of the root directory and every walked entry has path
`project_root ++ rel`. The directory tree visible to the walk is an inductive
(a node carries its name, and for files the size reported by `fs::metadata`).
The composed gitignore/arianaignore matcher of the source is abstracted as the
oracle `ig : path → Bool`, `true` meaning
`ignore.matched(path, is_dir).is_none()`. The source accumulates its four
collections in `HashSet`s, so they are order-insensitive; `insertSet` is set
insertion on duplicate-free lists. The `while let Some(entry) = entries.pop()`
loop over the `Vec` worklist is embedded as `walkStack` over a head-first
stack (popping the vector's last element = taking the head; `extend` appends
the children, so the pushed children are reversed onto the head); its fuel
only bounds the iteration count, and `collect_items` passes `sizeOf`, which
exceeds the number of tree nodes and hence the number of iterations. -/

inductive FsEntry where
  | file (name : String) (size : Nat)
  | dir (name : String) (children : List FsEntry)

/-- The `file_name` of a tree node. -/
def entryName : FsEntry → String
  | FsEntry.file n _ => n
  | FsEntry.dir n _ => n

/-- Extensions accepted by `should_instrument_file` (collector.rs line 103). -/
def validInstrumentExts : List (List Char) :=
  ["js".toList, "ts".toList, "tsx".toList, "jsx".toList, "py".toList]

/-- Rust `str::ends_with`. -/
def strEndsWith (s suffixStr : String) : Bool :=
  suffixStr.toList.isSuffixOf s.toList

/-- `should_instrument_file` from collector.rs lines 102-125, as a function of
the file's name and its size (metadata reads succeed for tree entries): reject
files of 4 MiB or more, require a case-insensitive extension in
{js, ts, tsx, jsx, py}, and reject `*.config.js` / `*.config.ts`. -/
def should_instrument_file (name : String) (size : Nat) : Bool :=
  if 4 * 1024 * 1024 ≤ size then false
  else
    match extOfName name.toList with
    | some e =>
      if !(validInstrumentExts.contains (e.map Char.toLower)) then false
      else if strEndsWith name ".config.js" || strEndsWith name ".config.ts"
        then false
      else true
    | none => false

/-- The four `HashSet`s accumulated by `collect_items`. -/
structure CollectorSt where
  directories_to_link_or_copy : List (List String)
  parents_of_files : List (List String)
  files_to_instrument : List (List String)
  files_to_link_or_copy : List (List String)

/-- `HashSet::insert`. -/
def insertSet (x : List String) (s : List (List String)) : List (List String) :=
  if x ∈ s then s else x :: s

/-- `Path::parent` on a component list: `none` at the root. -/
def parentPath (p : List String) : Option (List String) :=
  if p.isEmpty then none else some p.dropLast

/-- The parents loop of collector.rs lines 47-54: walk up from the file path,
inserting each ancestor until one is already present. -/
def addParents (p : List String) (acc : List (List String)) :
    List (List String) :=
  if hp : p.isEmpty then acc
  else
    let par := p.dropLast
    if par ∈ acc then acc else addParents par (insertSet par acc)
termination_by p.length
decreasing_by
  rw [List.length_dropLast]
  have hne : p ≠ [] := fun h => hp (by simp [h])
  have hpos : 0 < p.length := List.length_pos.2 hne
  omega

/-- Handling of one file entry (collector.rs lines 46-60): record the ancestor
chain, then classify by `should_instrument_file`. -/
def fileStep (path : List String) (name : String) (size : Nat)
    (st : CollectorSt) : CollectorSt :=
  let st1 := { st with parents_of_files := addParents path st.parents_of_files }
  if should_instrument_file name size then
    { st1 with files_to_instrument := insertSet path st1.files_to_instrument }
  else
    { st1 with files_to_link_or_copy := insertSet path st1.files_to_link_or_copy }

/-- The number of nodes of a subtree (used only to provide iteration fuel for
the worklist loop: the loop pops one entry per iteration and every tree node
enters the worklist at most once). -/
def entrySize : FsEntry → Nat
  | FsEntry.file _ _ => 1
  | FsEntry.dir _ children =>
    1 + (children.attach.map (fun c => entrySize c.1)).sum
decreasing_by
  simp_wf
  have hlt := List.sizeOf_lt_of_mem c.2
  omega

/-- The worklist loop of `collect_items` (collector.rs lines 27-61): pop one
entry; a file goes through `fileStep`; a directory is descended into (its
child entries are pushed) when the ignore oracle and
`should_explore_directory` allow it, and recorded as a link-or-copy candidate
when `should_copy_or_link_directory` allows it. -/
def walkStack (ig : List String → Bool) :
    Nat → List ((List String) × FsEntry) → CollectorSt → CollectorSt
  | 0, _, st => st
  | _ + 1, [], st => st
  | fuel + 1, (path, FsEntry.file name size) :: rest, st =>
    walkStack ig fuel rest (fileStep path name size st)
  | fuel + 1, (path, FsEntry.dir name children) :: rest, st =>
    let pushed :=
      if ig path && should_explore_directory name then
        (children.map (fun c => (path ++ [entryName c], c))).reverse
      else []
    let st1 :=
      if should_copy_or_link_directory name then
        { st with directories_to_link_or_copy :=
            insertSet path st.directories_to_link_or_copy }
      else st
    walkStack ig fuel (pushed ++ rest) st1

/-- Kind-consistency of a subtree with respect to a kind assignment on paths
(`true` = directory, `false` = file). On a real filesystem each path has one
kind, so every walked tree is consistent with the actual kind map; a path that
appeared both as a directory and as a file would admit no such map. -/
inductive EntryConsistent (kind : List String → Bool) :
    List String → FsEntry → Prop where
  | file : ∀ (path : List String) (name : String) (size : Nat),
      kind path = false → EntryConsistent kind path (FsEntry.file name size)
  | dir : ∀ (path : List String) (name : String) (children : List FsEntry),
      kind path = true →
      (∀ c ∈ children, EntryConsistent kind (path ++ [entryName c]) c) →
      EntryConsistent kind path (FsEntry.dir name children)

/-- The triple produced by `collect_items`. -/
structure CollectedItems where
  directories_to_link_or_copy : List ((List String) × (List String))
  files_to_instrument : List ((List String) × (List String))
  files_to_link_or_copy : List ((List String) × (List String))

/-- `compute_dest_path` from utils.rs lines 211-215:
`ariana_dir.join(src.strip_prefix(project_root).unwrap())`. On component
lists, stripping the root prefix is dropping its length (the walk only
produces paths extending `project_root`, which is the `unwrap` precondition).
-/
def compute_dest_path (src_path project_root ariana_dir : List String) :
    List String :=
  ariana_dir ++ src_path.drop project_root.length

/-- `collect_items` (collector.rs lines 14-100): walk the tree, then subtract
`parents_of_files` from the directory candidates and `files_to_instrument`
from `files_to_link_or_copy`, and pair every source with its destination via
`compute_dest_path`. -/
def collect_items (ig : List String → Bool) (project_root : List String)
    (root_entries : List FsEntry) (ariana_dir : List String) : CollectedItems :=
  let st := walkStack ig ((root_entries.map entrySize).sum + 1)
    ((root_entries.map (fun c => (project_root ++ [entryName c], c))).reverse)
    (CollectorSt.mk [] [] [] [])
  let dirs := st.directories_to_link_or_copy.filter
    (fun p => p ∉ st.parents_of_files)
  let flc := st.files_to_link_or_copy.filter
    (fun p => p ∉ st.files_to_instrument)
  CollectedItems.mk
    (dirs.map (fun src => (src, compute_dest_path src project_root ariana_dir)))
    (st.files_to_instrument.map
      (fun src => (src, compute_dest_path src project_root ariana_dir)))
    (flc.map (fun src => (src, compute_dest_path src project_root ariana_dir)))

end Ariana

namespace Ariana

/-! ### Theorems for claims C4 and C8 -/

/-- Claim C8: `should_explore_directory(dir_name)` returns false if and only if
the name is in the skip list {node_modules, .git, .ariana, dist, build, target,
.ariana_saved_traces, .traces, venv, site-packages, __pycache__,
.ariana-saved-traces}, or contains a `.`, or starts with `_`; otherwise it
returns true. -/
theorem c8_should_explore_characterization (dir_name : String) :
    should_explore_directory dir_name = false ↔
      (dir_name ∈ explore_skip_list ∨ '.' ∈ dir_name.toList ∨
        dir_name.toList.head? = some '_') := by
  simp [should_explore_directory, List.contains, List.elem_iff]
  tauto

/-- Counterexample to claim C4 as stated: `should_copy_not_link` returns true
for a 10-byte file named `a.txt`, whose extension `txt` is not in the
forced-copy extension set — the size-based branch (< 1 MiB) makes the function
return true regardless of the extension. -/
theorem c4_counterexample :
    should_copy_not_link 10 "a.txt" = true ∧
    (extOfName (fileNameChars "a.txt".toList)).map (List.map Char.toLower) =
      some "txt".toList ∧
    forcedCopyExts.contains "txt".toList = false := by
  refine ⟨rfl, rfl, by decide⟩

/-- Claim C4 as amended: `should_copy_not_link` returns true iff the file is
smaller than 1 MiB, or its extension compared case-insensitively is one of
{html, htm, css, sass, scss, vue, svelte}; and exactly the paths on which it
returns true skip the symlink attempt during mirror materialization. -/
theorem c4_amended_copy_not_link (size : Nat) (p : String) (symlink_ok : Bool) :
    (should_copy_not_link size p = true ↔
      (size < 1024 * 1024 ∨
        ∃ e, extOfName (fileNameChars p.toList) = some e ∧
          (e.map Char.toLower) ∈ forcedCopyExts)) ∧
    ((create_link_or_copy_file size p symlink_ok).2 = false ↔
      should_copy_not_link size p = true) := by
  constructor
  · unfold should_copy_not_link
    split
    · simp_all
    · cases h : extOfName (fileNameChars p.toList) with
      | none => simp_all
      | some e =>
        simp_all [List.contains, List.elem_iff]
  · unfold create_link_or_copy_file
    split
    · simp_all
    · split <;> simp_all

/-! ### Theorems for claims C1 and C2 -/

/-- Claim C1 evaluated on the code: on the stdout line
`<trace id="1">{"a":1}</trace>x<trace id="2">{"a":2}</trace>` the extractor
does not succeed. It sends the first payload and then panics: the second
envelope starts at byte 30 of this 59-byte line, and the id scan slices
`line[41..80]`, which is out of bounds. The `decode` oracle is the identity
(every payload decodes), so the abort is caused solely by the slice. -/
theorem c1_two_trace_line_aborts :
    extract_line (fun s => some s)
      "<trace id=\"1\">\x7b\"a\":1\x7d</trace>x<trace id=\"2\">\x7b\"a\":2\x7d</trace>".toList
      = ExtractOut.aborted ["\x7b\"a\":1\x7d".toList] := by
  rfl

/-- Claim C2 evaluated on the code: with a payload long enough that the id-scan
slices stay in bounds, a payload the decoder rejects makes the extractor panic
(`serde_json::from_str(..).unwrap()`), aborting the scan instead of logging,
discarding and continuing; with a decoder that accepts the same payload, the
very same line is processed to completion. -/
theorem c2_decode_failure_aborts :
    (extract_line (fun _ => (none : Option (List Char)))
      "<trace id=\"1\">aaaaaaaaaaaaaaaaaaaaaaaaaaaaaaaaaaa</trace>".toList
      = ExtractOut.aborted []) ∧
    (extract_line (fun s => some s)
      "<trace id=\"1\">aaaaaaaaaaaaaaaaaaaaaaaaaaaaaaaaaaa</trace>".toList
      = ExtractOut.ok [] ["aaaaaaaaaaaaaaaaaaaaaaaaaaaaaaaaaaa".toList]) := by
  exact ⟨rfl, rfl⟩

/-! ### Theorems for claims C9 and C10 -/

/-- Claim C9: when the backup archive does not exist, `restore_backup` returns
the "Backup not found" error and the on-disk state is unchanged (the error
return happens before any write). -/
theorem c9_restore_missing_backup (st : ProcState) (h : st.backup = none) :
    restore_backup st = (st, Except.error "Backup not found, could not restore.") := by
  simp [restore_backup, h]

/-- Witness for C9 at a concrete state with no backup archive. -/
theorem c9_restore_missing_backup_witness :
    (ProcState.mk (fun _ => none) none []).backup = none ∧
    restore_backup (ProcState.mk (fun _ => none) none []) =
      (ProcState.mk (fun _ => none) none [],
        Except.error "Backup not found, could not restore.") :=
  ⟨rfl, c9_restore_missing_backup (ProcState.mk (fun _ => none) none []) rfl⟩

/-- Claim C10: `instrument_files_batch` on an empty path list returns `Ok` with
the empty vector and performs no HTTP request, for any HTTP outcome and any
contents list. -/
theorem c10_empty_batch_no_request (http : Except String (List (Option String)))
    (files_contents : List String) :
    instrument_files_batch http [] files_contents = (Except.ok [], 0) := by
  rfl

/-! ### Theorems for claim C3 -/

/-- Counterexample to claim C3 as stated: in mirror (non-in-place) mode with a
single file `a.js` whose batch RPC fails, the run continues but nothing is
written at the destination `.ariana/a.js` — the claim says the file is written
there in original form. -/
theorem c3_counterexample :
    Option.map (fun st => st.fs ".ariana/a.js")
      (process_instrument_files_in_batches (fun _ _ _ => none) false
        [("a.js", ".ariana/a.js")]
        (ProcState.mk (fun p => if p = "a.js" then some "orig" else none) none []))
      = some none := by
  rfl

/-! ### Helper lemmas about the trace shipper and the batch loop -/

theorem drain_chunks_length_le (buf : List τ) :
    ∀ b ∈ drain_chunks buf, b.length ≤ batch_size := by
  intro b hb
  simp only [drain_chunks, List.mem_map, List.mem_range] at hb
  obtain ⟨i, _, rfl⟩ := hb
  have hmin : Nat.min ((i + 1) * batch_size) buf.length - i * batch_size ≤
      batch_size := by
    have h1 : Nat.min ((i + 1) * batch_size) buf.length ≤ (i + 1) * batch_size :=
      Nat.min_le_left _ _
    have h2 : (i + 1) * batch_size = i * batch_size + batch_size := by ring
    omega
  calc (List.take (Nat.min ((i + 1) * batch_size) buf.length - i * batch_size)
          (buf.drop (i * batch_size))).length
      ≤ Nat.min ((i + 1) * batch_size) buf.length - i * batch_size := by
        simp [List.length_take]
    _ ≤ batch_size := hmin

theorem watch_step_inv (st : WatchState τ) (e : TraceEvent τ)
    (hbuf : st.traces.length < batch_size)
    (hp : ∀ b ∈ st.pushes, b.length ≤ batch_size) :
    (watch_step st e).traces.length < batch_size ∧
      ∀ b ∈ (watch_step st e).pushes, b.length ≤ batch_size := by
  cases e with
  | tick =>
    simp only [watch_step]
    split
    · exact ⟨hbuf, hp⟩
    · refine ⟨by simp [batch_size], ?_⟩
      intro b hb
      rcases List.mem_append.1 hb with hb | hb
      · exact hp b hb
      · simp only [List.mem_singleton] at hb
        exact hb ▸ Nat.le_of_lt hbuf
  | recv t elapsed_over_3s =>
    simp only [watch_step]
    split
    · refine ⟨by simp [batch_size], ?_⟩
      intro b hb
      rcases List.mem_append.1 hb with hb | hb
      · exact hp b hb
      · simp only [List.mem_singleton] at hb
        subst hb
        simp only [List.length_append, List.length_singleton]
        omega
    · rename_i hcond
      push_neg at hcond
      obtain ⟨h1, h2⟩ := hcond
      refine ⟨?_, hp⟩
      simp only [List.length_append, List.length_singleton] at h1 ⊢
      omega
  | stop =>
    simp only [watch_step]
    split
    · exact ⟨hbuf, hp⟩
    · refine ⟨hbuf, ?_⟩
      intro b hb
      rcases List.mem_append.1 hb with hb | hb
      · exact hp b hb
      · exact drain_chunks_length_le st.traces b hb

theorem watch_traces_pushes_le (events : List (TraceEvent τ)) :
    ∀ st : WatchState τ, st.traces.length < batch_size →
    (∀ b ∈ st.pushes, b.length ≤ batch_size) →
    ∀ b ∈ (watch_traces events st).pushes, b.length ≤ batch_size := by
  induction events with
  | nil => intro st _ hp; exact hp
  | cons e es ih =>
    intro st hbuf hp
    obtain ⟨hbuf', hp'⟩ := watch_step_inv st e hbuf hp
    cases e with
    | tick => exact ih _ hbuf' hp'
    | recv t elapsed_over_3s => exact ih _ hbuf' hp'
    | stop => exact hp'

theorem chunksOfFuel_length_le (n : Nat) :
    ∀ (fuel : Nat) (l : List α), ∀ b ∈ chunksOfFuel n fuel l, b.length ≤ n := by
  intro fuel
  induction fuel with
  | zero => intro l b hb; simp [chunksOfFuel] at hb
  | succ fuel ih =>
    intro l b hb
    cases l with
    | nil => simp [chunksOfFuel] at hb
    | cons x xs =>
      simp only [chunksOfFuel] at hb
      rcases List.mem_cons.1 hb with rfl | hb
      · simp [List.length_take]
      · exact ih _ b hb

theorem writeLoop_rpcCalls (is_inplace : Bool)
    (ws : List ((String × String) × String × Option String)) :
    ∀ st : ProcState, (writeLoop is_inplace ws st).rpcCalls = st.rpcCalls := by
  induction ws with
  | nil => intro st; rfl
  | cons w rest ih =>
    intro st
    obtain ⟨sd, orig, slot⟩ := w
    cases is_inplace <;> simp [writeLoop, ih]

theorem processBatch_rpcCalls
    (rpc : Nat → List String → List String → Option (List (Option String)))
    (i : Nat) (is_inplace : Bool) (batch : List (String × String))
    (st st' : ProcState) (h : processBatch rpc i is_inplace batch st = some st') :
    st'.rpcCalls = st.rpcCalls ++ [batch.map Prod.fst] := by
  unfold processBatch at h
  cases hr : readContents st.fs batch with
  | none => rw [hr] at h; exact absurd h (by simp)
  | some contents =>
    rw [hr] at h
    simp only at h
    cases hc : rpc i (batch.map Prod.fst) contents with
    | none =>
      rw [hc] at h
      cases h
      rfl
    | some slots =>
      rw [hc] at h
      cases h
      rw [writeLoop_rpcCalls]

theorem processAllBatches_calls
    (rpc : Nat → List String → List String → Option (List (Option String)))
    (is_inplace : Bool) :
    ∀ (chunks : List (List (String × String))) (i : Nat) (st st' : ProcState),
    processAllBatches rpc is_inplace i chunks st = some st' →
    ∀ c ∈ st'.rpcCalls,
      c ∈ st.rpcCalls ∨ ∃ b ∈ chunks, c = b.map Prod.fst := by
  intro chunks
  induction chunks with
  | nil =>
    intro i st st' h c hc
    cases h
    exact Or.inl hc
  | cons b bs ih =>
    intro i st st' h c hc
    unfold processAllBatches at h
    cases hb : processBatch rpc i is_inplace b st with
    | none => rw [hb] at h; exact absurd h (by simp)
    | some st1 =>
      rw [hb] at h
      rcases ih (i + 1) st1 st' h c hc with hmem | ⟨b', hb', rfl⟩
      · rw [processBatch_rpcCalls rpc i is_inplace b st st1 hb] at hmem
        rcases List.mem_append.1 hmem with hmem | hmem
        · exact Or.inl hmem
        · simp only [List.mem_singleton] at hmem
          exact Or.inr ⟨b, List.mem_cons_self _ _, hmem⟩
      · exact Or.inr ⟨b', List.mem_cons_of_mem _ hb', rfl⟩

/-! ### Theorem for claim C5 -/

/-- Claim C5: every POST body handed to `process_traces` by the trace shipper
— whether triggered by the 50 000-record buffer bound, the 3-second tick, or
the drain on stop — contains at most 50 000 records, and every batch RPC issued
by `process_instrument_files_in_batches` carries at most 300 files. -/
theorem c5_batching_bounds :
    (∀ (τ : Type) (events : List (TraceEvent τ)),
      ∀ b ∈ (watch_traces events (WatchState.mk [] [])).pushes,
        b.length ≤ 50000) ∧
    (∀ (rpc : Nat → List String → List String → Option (List (Option String)))
      (is_inplace : Bool) (files : List (String × String)) (st : ProcState),
      st.rpcCalls = [] →
      ∀ c ∈ ((process_instrument_files_in_batches rpc is_inplace files st).map
              ProcState.rpcCalls).getD [],
        c.length ≤ 300) := by
  constructor
  · intro τ events b hb
    exact watch_traces_pushes_le events (WatchState.mk [] [])
      (by simp [batch_size]) (by simp) b hb
  · intro rpc is_inplace files st hcalls c hc
    cases h : process_instrument_files_in_batches rpc is_inplace files st with
    | none => rw [h] at hc; simp at hc
    | some st' =>
      rw [h] at hc
      simp only [Option.map_some', Option.getD_some] at hc
      unfold process_instrument_files_in_batches at h
      rcases processAllBatches_calls rpc is_inplace _ 0 st st' h c hc with
        hmem | ⟨b, hbmem, rfl⟩
      · rw [hcalls] at hmem; simp at hmem
      · rw [List.length_map]
        exact chunksOfFuel_length_le 300 _ _ b hbmem

/-- Witness for C5 at concrete inputs: a one-trace run whose single push has
one record, and a one-file in-place run whose single RPC carries one file. -/
theorem c5_batching_bounds_witness :
    (([3] : List Nat) ∈
        (watch_traces [TraceEvent.recv 3 false, TraceEvent.stop]
          (WatchState.mk ([] : List Nat) [])).pushes ∧
      ([3] : List Nat).length ≤ 50000) ∧
    ((ProcState.mk (fun p => if p = "a.py" then some "x" else none) none
        []).rpcCalls = [] ∧
      ["a.py"] ∈ ((process_instrument_files_in_batches
          (fun _ _ _ => some [some "I"]) true [("a.py", "a.py")]
          (ProcState.mk (fun p => if p = "a.py" then some "x" else none) none
            [])).map ProcState.rpcCalls).getD [] ∧
      (["a.py"] : List String).length ≤ 300) := by
  refine ⟨⟨by decide, ?_⟩, ⟨rfl, by decide, ?_⟩⟩
  · exact c5_batching_bounds.1 Nat [TraceEvent.recv 3 false, TraceEvent.stop]
      [3] (by decide)
  · exact c5_batching_bounds.2 (fun _ _ _ => some [some "I"]) true
      [("a.py", "a.py")]
      (ProcState.mk (fun p => if p = "a.py" then some "x" else none) none [])
      rfl ["a.py"] (by decide)

/-! ### Helper lemmas about the write loop -/

theorem writeLoop_cons_true (sd : String × String) (orig : String)
    (slot : Option String)
    (rest : List ((String × String) × String × Option String))
    (st : ProcState) :
    writeLoop true ((sd, orig, slot) :: rest) st =
      writeLoop true rest
        { st with
          backup := some ((st.backup.getD []) ++ [(sd.1, orig)]),
          fs := writeFS st.fs sd.1 (slot.getD orig) } := by
  cases slot <;> rfl

theorem writeLoop_cons_false (sd : String × String) (orig : String)
    (slot : Option String)
    (rest : List ((String × String) × String × Option String))
    (st : ProcState) :
    writeLoop false ((sd, orig, slot) :: rest) st =
      writeLoop false rest
        { st with fs := writeFS st.fs sd.2 (slot.getD orig) } := by
  cases slot <;> rfl

theorem writeLoop_mirror_fs_other
    (ws : List ((String × String) × String × Option String)) :
    ∀ (st : ProcState) (p : String), (∀ w ∈ ws, w.1.2 ≠ p) →
    (writeLoop false ws st).fs p = st.fs p := by
  induction ws with
  | nil => intro st p _; rfl
  | cons w rest ih =>
    intro st p hne
    obtain ⟨sd, orig, slot⟩ := w
    rw [writeLoop_cons_false]
    rw [ih _ p (fun w hw => hne w (List.mem_cons_of_mem _ hw))]
    simp only [writeFS]
    rw [if_neg]
    intro hq
    exact hne (sd, orig, slot) (List.mem_cons_self _ _) (hq ▸ rfl)

theorem writeLoop_inplace_fs_other
    (ws : List ((String × String) × String × Option String)) :
    ∀ (st : ProcState) (p : String), (∀ w ∈ ws, w.1.1 ≠ p) →
    (writeLoop true ws st).fs p = st.fs p := by
  induction ws with
  | nil => intro st p _; rfl
  | cons w rest ih =>
    intro st p hne
    obtain ⟨sd, orig, slot⟩ := w
    rw [writeLoop_cons_true]
    rw [ih _ p (fun w hw => hne w (List.mem_cons_of_mem _ hw))]
    simp only [writeFS]
    rw [if_neg]
    intro hq
    exact hne (sd, orig, slot) (List.mem_cons_self _ _) (hq ▸ rfl)

theorem writeLoop_mirror_none_slot
    (ws : List ((String × String) × String × Option String)) :
    ∀ st : ProcState, ((ws.map fun w => w.1.2).Nodup) →
    ∀ w ∈ ws, w.2.2 = none → (writeLoop false ws st).fs w.1.2 = some w.2.1 := by
  induction ws with
  | nil => intro st _ w hw; simp at hw
  | cons w0 rest ih =>
    intro st hnd w hw hslot
    have hnd' := List.nodup_cons.1 hnd
    rcases List.mem_cons.1 hw with rfl | hwr
    · obtain ⟨sd, orig, slot⟩ := w
      simp only at hslot
      subst hslot
      rw [writeLoop_cons_false]
      rw [writeLoop_mirror_fs_other rest _ sd.2 ?hne]
      · simp [writeFS]
      · intro w' hw' heq
        apply hnd'.1
        have hmm : w'.1.2 ∈ List.map (fun w => w.1.2) rest :=
          List.mem_map_of_mem _ hw'
        rwa [heq] at hmm
    · obtain ⟨sd, orig, slot⟩ := w0
      rw [writeLoop_cons_false]
      exact ih _ hnd'.2 w hwr hslot

theorem writeLoop_inplace_none_slot
    (ws : List ((String × String) × String × Option String)) :
    ∀ st : ProcState, ((ws.map fun w => w.1.1).Nodup) →
    ∀ w ∈ ws, w.2.2 = none → (writeLoop true ws st).fs w.1.1 = some w.2.1 := by
  induction ws with
  | nil => intro st _ w hw; simp at hw
  | cons w0 rest ih =>
    intro st hnd w hw hslot
    have hnd' := List.nodup_cons.1 hnd
    rcases List.mem_cons.1 hw with rfl | hwr
    · obtain ⟨sd, orig, slot⟩ := w
      simp only at hslot
      subst hslot
      rw [writeLoop_cons_true]
      rw [writeLoop_inplace_fs_other rest _ sd.1 ?hne]
      · simp [writeFS]
      · intro w' hw' heq
        apply hnd'.1
        have hmm : w'.1.1 ∈ List.map (fun w => w.1.1) rest :=
          List.mem_map_of_mem _ hw'
        rwa [heq] at hmm
    · obtain ⟨sd, orig, slot⟩ := w0
      rw [writeLoop_cons_true]
      exact ih _ hnd'.2 w hwr hslot

/-! ### Theorems for claim C3 (amended) -/

/-- Claim C3 as amended: when the batch RPC fails, the run continues but the
files of that batch are not written at all (the on-disk state and the backup
are unchanged; only the call log grows) — so an in-place source keeps its
original content while a mirror destination is simply not created; and when
the RPC succeeds with a `None` slot for a file, the original content is
written to that file's destination (mirror mode) or back to its source
(in-place mode). -/
theorem c3_amended_failure_and_none_slot :
    (∀ (rpc : Nat → List String → List String → Option (List (Option String)))
      (i : Nat) (is_inplace : Bool) (batch : List (String × String))
      (st : ProcState) (contents : List String),
      readContents st.fs batch = some contents →
      rpc i (batch.map Prod.fst) contents = none →
      processBatch rpc i is_inplace batch st =
        some { st with rpcCalls := st.rpcCalls ++ [batch.map Prod.fst] }) ∧
    (∀ (ws : List ((String × String) × String × Option String))
      (st : ProcState), ((ws.map fun w => w.1.2).Nodup) →
      ∀ w ∈ ws, w.2.2 = none →
      (writeLoop false ws st).fs w.1.2 = some w.2.1) ∧
    (∀ (ws : List ((String × String) × String × Option String))
      (st : ProcState), ((ws.map fun w => w.1.1).Nodup) →
      ∀ w ∈ ws, w.2.2 = none →
      (writeLoop true ws st).fs w.1.1 = some w.2.1) := by
  refine ⟨?_, writeLoop_mirror_none_slot, writeLoop_inplace_none_slot⟩
  intro rpc i is_inplace batch st contents hrc hrpc
  unfold processBatch
  rw [hrc]
  simp only [hrpc]

/-- Witness for the amended C3 at concrete inputs: a failed one-file batch
leaves the filesystem untouched and only logs the call; a `None` slot writes
the original content `x` to the destination `d`. -/
theorem c3_amended_failure_and_none_slot_witness :
    (readContents (fun p => if p = "a" then some "x" else none) [("a", "d")] =
        some ["x"] ∧
      processBatch (fun _ _ _ => none) 0 false [("a", "d")]
          (ProcState.mk (fun p => if p = "a" then some "x" else none) none []) =
        some (ProcState.mk (fun p => if p = "a" then some "x" else none) none
          [["a"]])) ∧
    (writeLoop false [(("a", "d"), "x", none)]
        (ProcState.mk (fun _ => none) none [])).fs "d" = some "x" ∧
    (writeLoop true [(("a", "d"), "x", none)]
        (ProcState.mk (fun _ => none) none [])).fs "a" = some "x" := by
  refine ⟨⟨rfl, ?_⟩, ?_, ?_⟩
  · exact c3_amended_failure_and_none_slot.1 (fun _ _ _ => none) 0 false
      [("a", "d")]
      (ProcState.mk (fun p => if p = "a" then some "x" else none) none [])
      ["x"] rfl rfl
  · exact c3_amended_failure_and_none_slot.2.1 [(("a", "d"), "x", none)]
      (ProcState.mk (fun _ => none) none []) (by decide)
      (("a", "d"), "x", none) (List.mem_singleton.2 rfl) rfl
  · exact c3_amended_failure_and_none_slot.2.2 [(("a", "d"), "x", none)]
      (ProcState.mk (fun _ => none) none []) (by decide)
      (("a", "d"), "x", none) (List.mem_singleton.2 rfl) rfl

/-! ### Helper lemmas towards the backup round-trip (claim C6) -/

theorem readContents_isSome (fs : FS) :
    ∀ batch : List (String × String), (∀ sd ∈ batch, (fs sd.1).isSome = true) →
    ∃ cs, readContents fs batch = some cs := by
  intro batch
  induction batch with
  | nil => intro _; exact ⟨[], rfl⟩
  | cons sd rest ih =>
    intro h
    obtain ⟨c, hc⟩ := Option.isSome_iff_exists.1 (h sd (List.mem_cons_self _ _))
    obtain ⟨cs, hcs⟩ := ih (fun sd' hsd' => h sd' (List.mem_cons_of_mem _ hsd'))
    exact ⟨c :: cs, by simp [readContents, hc, hcs]⟩

theorem readContents_zip3 (fs : FS) :
    ∀ (batch : List (String × String)) (cs : List String),
    readContents fs batch = some cs →
    ∀ (slots : List (Option String)),
    ∀ w ∈ zip3 batch cs slots, fs w.1.1 = some w.2.1 := by
  intro batch
  induction batch with
  | nil =>
    intro cs h slots w hw
    cases h
    simp [zip3] at hw
  | cons sd rest ih =>
    intro cs h slots w hw
    simp only [readContents] at h
    cases hfs : fs sd.1 with
    | none => rw [hfs] at h; exact absurd h (by simp)
    | some c =>
      rw [hfs] at h
      cases hrc : readContents fs rest with
      | none => rw [hrc] at h; exact absurd h (by simp)
      | some cs' =>
        rw [hrc] at h
        simp only [Option.some.injEq] at h
        subst h
        cases slots with
        | nil => simp [zip3] at hw
        | cons slot slots' =>
          simp only [zip3] at hw
          rcases List.mem_cons.1 hw with rfl | hw
          · exact hfs
          · exact ih cs' hrc slots' w hw

theorem zip3_mem_fst {xs : List α} {ys : List β} {zs : List γ} :
    ∀ w ∈ zip3 xs ys zs, w.1 ∈ xs := by
  induction xs generalizing ys zs with
  | nil => intro w hw; simp [zip3] at hw
  | cons x xs ih =>
    intro w hw
    cases ys with
    | nil => simp [zip3] at hw
    | cons y ys =>
      cases zs with
      | nil => simp [zip3] at hw
      | cons z zs =>
        simp only [zip3] at hw
        rcases List.mem_cons.1 hw with rfl | hw
        · exact List.mem_cons_self _ _
        · exact List.mem_cons_of_mem _ (ih w hw)

theorem zip3_fst_sublist {xs : List α} {ys : List β} {zs : List γ} :
    ((zip3 xs ys zs).map (fun w => w.1)).Sublist xs := by
  induction xs generalizing ys zs with
  | nil => cases ys <;> cases zs <;> simp [zip3]
  | cons x xs ih =>
    cases ys with
    | nil => simp [zip3]
    | cons y ys =>
      cases zs with
      | nil => simp [zip3]
      | cons z zs =>
        simp only [zip3, List.map_cons]
        exact List.Sublist.cons₂ x ih

theorem writeLoop_inplace_inv (origfs : FS)
    (ws : List ((String × String) × String × Option String)) :
    ∀ (st : ProcState) (A : List (String × String)),
    st.backup = some A →
    (∀ kv ∈ A, origfs kv.1 = some kv.2) →
    (A.map Prod.fst).Nodup →
    (∀ p, p ∉ A.map Prod.fst → st.fs p = origfs p) →
    (∀ w ∈ ws, origfs w.1.1 = some w.2.1) →
    (∀ w ∈ ws, w.1.1 ∉ A.map Prod.fst) →
    ((ws.map fun w => w.1.1).Nodup) →
    ∃ A', (writeLoop true ws st).backup = some A' ∧
      (∀ kv ∈ A', origfs kv.1 = some kv.2) ∧
      (A'.map Prod.fst).Nodup ∧
      (∀ p, p ∉ A'.map Prod.fst → (writeLoop true ws st).fs p = origfs p) ∧
      (∀ k ∈ A'.map Prod.fst,
        k ∈ A.map Prod.fst ∨ k ∈ ws.map fun w => w.1.1) := by
  induction ws with
  | nil =>
    intro st A h1 h2 h3 h4 _ _ _
    exact ⟨A, h1, h2, h3, h4, fun k hk => Or.inl hk⟩
  | cons w rest ih =>
    intro st A h1 h2 h3 h4 h5 h6 h7
    obtain ⟨sd, orig, slot⟩ := w
    rw [writeLoop_cons_true]
    have hbackup : ({ st with
        backup := some ((st.backup.getD []) ++ [(sd.1, orig)]),
        fs := writeFS st.fs sd.1 (slot.getD orig) } : ProcState).backup =
        some (A ++ [(sd.1, orig)]) := by
      simp [h1]
    have horighead : origfs sd.1 = some orig :=
      h5 (sd, orig, slot) (List.mem_cons_self _ _)
    have hheadnotin : sd.1 ∉ A.map Prod.fst :=
      h6 (sd, orig, slot) (List.mem_cons_self _ _)
    rw [List.map_cons] at h7
    have h7' := List.nodup_cons.1 h7
    have h2' : ∀ kv ∈ A ++ [(sd.1, orig)], origfs kv.1 = some kv.2 := by
      intro kv hkv
      rcases List.mem_append.1 hkv with hkv | hkv
      · exact h2 kv hkv
      · simp only [List.mem_singleton] at hkv
        subst hkv
        exact horighead
    have h3' : ((A ++ [(sd.1, orig)]).map Prod.fst).Nodup := by
      rw [List.map_append]
      refine (List.Perm.nodup_iff List.perm_append_comm).2 ?_
      simp only [List.map_cons, List.map_nil, List.singleton_append]
      exact List.nodup_cons.2 ⟨hheadnotin, h3⟩
    have h4' : ∀ p, p ∉ (A ++ [(sd.1, orig)]).map Prod.fst →
        ({ st with
          backup := some ((st.backup.getD []) ++ [(sd.1, orig)]),
          fs := writeFS st.fs sd.1 (slot.getD orig) } : ProcState).fs p =
          origfs p := by
      intro p hp
      rw [List.map_append] at hp
      simp only [List.mem_append, List.map_cons, List.map_nil,
        List.mem_singleton, not_or] at hp
      show writeFS st.fs sd.1 (slot.getD orig) p = origfs p
      rw [writeFS, if_neg hp.2]
      exact h4 p hp.1
    have h5' : ∀ w ∈ rest, origfs w.1.1 = some w.2.1 :=
      fun w hw => h5 w (List.mem_cons_of_mem _ hw)
    have h6' : ∀ w ∈ rest, w.1.1 ∉ (A ++ [(sd.1, orig)]).map Prod.fst := by
      intro w hw
      rw [List.map_append]
      simp only [List.mem_append, List.map_cons, List.map_nil,
        List.mem_singleton, not_or]
      refine ⟨h6 w (List.mem_cons_of_mem _ hw), ?_⟩
      intro heq
      exact h7'.1 (heq ▸ List.mem_map_of_mem (fun w => w.1.1) hw)
    obtain ⟨A', hA1, hA2, hA3, hA4, hA5⟩ :=
      ih _ (A ++ [(sd.1, orig)]) hbackup h2' h3' h4' h5' h6' h7'.2
    refine ⟨A', hA1, hA2, hA3, hA4, ?_⟩
    intro k hk
    rcases hA5 k hk with hk' | hk'
    · rw [List.map_append] at hk'
      rcases List.mem_append.1 hk' with hk'' | hk''
      · exact Or.inl hk''
      · simp only [List.map_cons, List.map_nil, List.mem_singleton] at hk''
        exact Or.inr (by simp [hk''])
    · exact Or.inr (by simp [hk'])

theorem processBatch_inplace_inv (origfs : FS)
    (rpc : Nat → List String → List String → Option (List (Option String)))
    (i : Nat) (batch : List (String × String)) (st : ProcState)
    (A : List (String × String))
    (h1 : st.backup = some A)
    (h2 : ∀ kv ∈ A, origfs kv.1 = some kv.2)
    (h3 : (A.map Prod.fst).Nodup)
    (h4 : ∀ p, p ∉ A.map Prod.fst → st.fs p = origfs p)
    (h5 : ∀ sd ∈ batch, (origfs sd.1).isSome = true)
    (h6 : ∀ sd ∈ batch, sd.1 ∉ A.map Prod.fst)
    (h7 : (batch.map Prod.fst).Nodup) :
    ∃ st' A', processBatch rpc i true batch st = some st' ∧
      st'.backup = some A' ∧
      (∀ kv ∈ A', origfs kv.1 = some kv.2) ∧
      (A'.map Prod.fst).Nodup ∧
      (∀ p, p ∉ A'.map Prod.fst → st'.fs p = origfs p) ∧
      (∀ k ∈ A'.map Prod.fst,
        k ∈ A.map Prod.fst ∨ k ∈ batch.map Prod.fst) := by
  have hreads : ∀ sd ∈ batch, (st.fs sd.1).isSome = true := by
    intro sd hsd
    rw [h4 sd.1 (h6 sd hsd)]
    exact h5 sd hsd
  obtain ⟨cs, hcs⟩ := readContents_isSome st.fs batch hreads
  have hlog1 : ({ st with rpcCalls := st.rpcCalls ++ [batch.map Prod.fst] } :
      ProcState).backup = some A := h1
  cases hrpc : rpc i (batch.map Prod.fst) cs with
  | none =>
    refine ⟨_, A, ?_, hlog1, h2, h3, h4, fun k hk => Or.inl hk⟩
    unfold processBatch
    rw [hcs]
    simp only [hrpc]
  | some slots =>
    set ws := zip3 batch cs slots with hws
    have hst1fs : ({ st with rpcCalls := st.rpcCalls ++ [batch.map Prod.fst] } :
        ProcState).fs = st.fs := rfl
    have h5ws : ∀ w ∈ ws, origfs w.1.1 = some w.2.1 := by
      intro w hw
      have hfsw : st.fs w.1.1 = some w.2.1 := readContents_zip3 st.fs batch cs hcs slots w hw
      have hmem : w.1 ∈ batch := zip3_mem_fst w hw
      rw [← h4 w.1.1 (h6 w.1 hmem)]
      exact hfsw
    have h6ws : ∀ w ∈ ws, w.1.1 ∉ A.map Prod.fst := by
      intro w hw
      exact h6 w.1 (zip3_mem_fst w hw)
    have h7ws : ((ws.map fun w => w.1.1).Nodup) := by
      have hsub : ((ws.map fun w => w.1).map Prod.fst).Sublist
          (batch.map Prod.fst) := List.Sublist.map Prod.fst zip3_fst_sublist
      rw [List.map_map] at hsub
      exact List.Nodup.sublist hsub h7
    obtain ⟨A', hA1, hA2, hA3, hA4, hA5⟩ :=
      writeLoop_inplace_inv origfs ws
        ({ st with rpcCalls := st.rpcCalls ++ [batch.map Prod.fst] }) A
        hlog1 h2 h3 (by rw [hst1fs]; exact h4) h5ws h6ws h7ws
    refine ⟨_, A', ?_, hA1, hA2, hA3, hA4, ?_⟩
    · unfold processBatch
      rw [hcs]
      simp only [hrpc]
    · intro k hk
      rcases hA5 k hk with hk' | hk'
      · exact Or.inl hk'
      · obtain ⟨w, hw, rfl⟩ := List.mem_map.1 hk'
        exact Or.inr (List.mem_map_of_mem Prod.fst (zip3_mem_fst w hw))

theorem processAllBatches_inplace_inv (origfs : FS)
    (rpc : Nat → List String → List String → Option (List (Option String))) :
    ∀ (chunks : List (List (String × String))) (i : Nat) (st : ProcState)
      (A : List (String × String)),
    st.backup = some A →
    (∀ kv ∈ A, origfs kv.1 = some kv.2) →
    (A.map Prod.fst).Nodup →
    (∀ p, p ∉ A.map Prod.fst → st.fs p = origfs p) →
    (∀ sd ∈ chunks.flatten, (origfs sd.1).isSome = true) →
    (∀ sd ∈ chunks.flatten, sd.1 ∉ A.map Prod.fst) →
    ((chunks.flatten.map Prod.fst).Nodup) →
    ∃ st' A', processAllBatches rpc true i chunks st = some st' ∧
      st'.backup = some A' ∧
      (∀ kv ∈ A', origfs kv.1 = some kv.2) ∧
      (A'.map Prod.fst).Nodup ∧
      (∀ p, p ∉ A'.map Prod.fst → st'.fs p = origfs p) := by
  intro chunks
  induction chunks with
  | nil =>
    intro i st A h1 h2 h3 h4 _ _ _
    exact ⟨st, A, rfl, h1, h2, h3, h4⟩
  | cons b bs ih =>
    intro i st A h1 h2 h3 h4 h5 h6 h7
    have hsplit : (b :: bs).flatten = b ++ bs.flatten := rfl
    rw [hsplit] at h5 h6 h7
    rw [List.map_append] at h7
    obtain ⟨hnb, hnbs, hdisj⟩ := List.nodup_append.1 h7
    obtain ⟨st1, A1, hpb, g1, g2, g3, g4, g5⟩ :=
      processBatch_inplace_inv origfs rpc i b st A h1 h2 h3 h4
        (fun sd hsd => h5 sd (List.mem_append.2 (Or.inl hsd)))
        (fun sd hsd => h6 sd (List.mem_append.2 (Or.inl hsd)))
        hnb
    have h5' : ∀ sd ∈ bs.flatten, (origfs sd.1).isSome = true :=
      fun sd hsd => h5 sd (List.mem_append.2 (Or.inr hsd))
    have h6' : ∀ sd ∈ bs.flatten, sd.1 ∉ A1.map Prod.fst := by
      intro sd hsd hk
      rcases g5 sd.1 hk with hk' | hk'
      · exact h6 sd (List.mem_append.2 (Or.inr hsd)) hk'
      · exact hdisj hk' (List.mem_map_of_mem Prod.fst hsd)
    obtain ⟨st', A', hrest, f1, f2, f3, f4⟩ :=
      ih (i + 1) st1 A1 g1 g2 g3 g4 h5' h6' hnbs
    refine ⟨st', A', ?_, f1, f2, f3, f4⟩
    unfold processAllBatches
    rw [hpb]
    exact hrest

theorem restoreFold_of_not_mem :
    ∀ (A : List (String × String)) (base : FS) (p : String),
    p ∉ A.map Prod.fst →
    (A.foldl (fun fs kv => writeFS fs kv.1 kv.2) base) p = base p := by
  intro A
  induction A with
  | nil => intro base p _; rfl
  | cons kv rest ih =>
    intro base p hp
    simp only [List.map_cons, List.mem_cons, not_or] at hp
    simp only [List.foldl_cons]
    rw [ih _ p hp.2]
    simp only [writeFS]
    rw [if_neg hp.1]

theorem restoreFold_of_mem :
    ∀ (A : List (String × String)) (base : FS) (kv : String × String),
    (A.map Prod.fst).Nodup → kv ∈ A →
    (A.foldl (fun fs kv => writeFS fs kv.1 kv.2) base) kv.1 = some kv.2 := by
  intro A
  induction A with
  | nil => intro base kv _ hkv; simp at hkv
  | cons kv0 rest ih =>
    intro base kv hnd hkv
    rw [List.map_cons] at hnd
    have hnd' := List.nodup_cons.1 hnd
    simp only [List.foldl_cons]
    rcases List.mem_cons.1 hkv with rfl | hkv
    · rw [restoreFold_of_not_mem rest _ kv.1 hnd'.1]
      simp [writeFS]
    · exact ih _ kv hnd'.2 hkv

theorem insertSorted_perm (fs : FS) (x : String × String) :
    ∀ l : List (String × String), (insertSorted fs x l).Perm (x :: l) := by
  intro l
  induction l with
  | nil => exact List.Perm.refl _
  | cons y ys ih =>
    simp only [insertSorted]
    split
    · exact List.Perm.refl _
    · exact List.Perm.trans (List.Perm.cons y ih) (List.Perm.swap x y ys)

theorem sortBySize_perm (fs : FS) :
    ∀ l : List (String × String), (sortBySize fs l).Perm l := by
  intro l
  induction l with
  | nil => exact List.Perm.refl _
  | cons x xs ih =>
    have hfold : sortBySize fs (x :: xs) = insertSorted fs x (sortBySize fs xs) :=
      rfl
    rw [hfold]
    exact List.Perm.trans (insertSorted_perm fs x (sortBySize fs xs))
      (List.Perm.cons x ih)

theorem chunksOfFuel_flatten (n : Nat) (hn : n ≠ 0) :
    ∀ (fuel : Nat) (l : List α), l.length ≤ fuel * n →
    (chunksOfFuel n fuel l).flatten = l := by
  intro fuel
  induction fuel with
  | zero =>
    intro l hl
    simp only [Nat.zero_mul, Nat.le_zero] at hl
    rw [List.length_eq_zero.1 hl]
    rfl
  | succ fuel ih =>
    intro l hl
    cases l with
    | nil => rfl
    | cons x xs =>
      simp only [chunksOfFuel, List.flatten_cons]
      rw [ih ((x :: xs).drop n) ?hlen]
      · exact List.take_append_drop n (x :: xs)
      · have hd : ((x :: xs).drop n).length = (x :: xs).length - n := by
          simp [List.length_drop]
        have hmul : (fuel + 1) * n = fuel * n + n := by ring
        omega

theorem chunksOf_flatten (n : Nat) (hn : n ≠ 0) (l : List α) :
    (chunksOf n l).flatten = l := by
  refine chunksOfFuel_flatten n hn l.length l ?_
  have : 1 ≤ n := Nat.one_le_iff_ne_zero.2 hn
  calc l.length = l.length * 1 := by ring
    _ ≤ l.length * n := Nat.mul_le_mul_left _ this

/-! ### Theorem for claim C6 -/

/-- Claim C6: for an in-place run in which every file in *files-to-instrument*
can be read and source paths are distinct (they form a set in the collector),
running the instrumentation pass — which appends each original to the backup
archive keyed by its source path before overwriting the source — and then
`restore_backup` leaves every file of *files-to-instrument* byte-identical to
its pre-run content, whatever the batch RPC returned. -/
theorem c6_inplace_backup_roundtrip
    (rpc : Nat → List String → List String → Option (List (Option String)))
    (files : List (String × String)) (st : ProcState)
    (hnd : (files.map Prod.fst).Nodup)
    (hread : ∀ sd ∈ files, (st.fs sd.1).isSome = true) :
    ∃ st', process_items_inplace rpc files st = some st' ∧
      (restore_backup st').2 = Except.ok () ∧
      ∀ sd ∈ files, (restore_backup st').1.fs sd.1 = st.fs sd.1 := by
  have hperm : (sortBySize st.fs files).Perm files := sortBySize_perm st.fs files
  have hpermmap : ((sortBySize st.fs files).map Prod.fst).Perm
      (files.map Prod.fst) := List.Perm.map Prod.fst hperm
  have hflat : (chunksOf 300 (sortBySize st.fs files)).flatten =
      sortBySize st.fs files := chunksOf_flatten 300 (by decide) _
  obtain ⟨st', A', hrun, hb, hA2, hA3, hfs⟩ :=
    processAllBatches_inplace_inv st.fs rpc
      (chunksOf 300 (sortBySize st.fs files)) 0
      ({ st with backup := some [] }) []
      rfl (by simp) (by simp) (fun p _ => rfl)
      (by
        intro sd hsd
        rw [hflat] at hsd
        exact hread sd (hperm.mem_iff.1 hsd))
      (by intro sd _; simp)
      (by
        rw [hflat]
        exact (List.Perm.nodup_iff hpermmap).2 hnd)
  refine ⟨st', ?_, ?_, ?_⟩
  · exact hrun
  · simp [restore_backup, hb]
  · intro sd hsd
    have hrb : (restore_backup st').1.fs =
        A'.foldl (fun fs kv => writeFS fs kv.1 kv.2) st'.fs := by
      simp [restore_backup, hb]
    rw [hrb]
    by_cases hmem : sd.1 ∈ A'.map Prod.fst
    · obtain ⟨kv, hkv, hfst⟩ := List.mem_map.1 hmem
      have hfold := restoreFold_of_mem A' st'.fs kv hA3 hkv
      rw [hfst] at hfold
      rw [hfold, ← hfst]
      exact (hA2 kv hkv).symm
    · rw [restoreFold_of_not_mem A' st'.fs sd.1 hmem]
      exact hfs sd.1 hmem

/-- Witness for C6: a one-file in-place run over `a.py` (original content
`orig`, instrumented to `INSTR`) followed by `restore_backup` restores the
original content. -/
theorem c6_inplace_backup_roundtrip_witness :
    (([("a.py", ".ariana/a.py")].map Prod.fst).Nodup ∧
      ∀ sd ∈ [("a.py", ".ariana/a.py")],
        (((fun p => if p = "a.py" then some "orig" else none) : FS) sd.1).isSome
          = true) ∧
    ∃ st', process_items_inplace (fun _ _ _ => some [some "INSTR"])
        [("a.py", ".ariana/a.py")]
        (ProcState.mk (fun p => if p = "a.py" then some "orig" else none) none
          []) = some st' ∧
      (restore_backup st').2 = Except.ok () ∧
      ∀ sd ∈ [("a.py", ".ariana/a.py")],
        (restore_backup st').1.fs sd.1 =
          ((fun p => if p = "a.py" then some "orig" else none) : FS) sd.1 := by
  refine ⟨⟨by decide, by decide⟩, ?_⟩
  exact c6_inplace_backup_roundtrip (fun _ _ _ => some [some "INSTR"])
    [("a.py", ".ariana/a.py")]
    (ProcState.mk (fun p => if p = "a.py" then some "orig" else none) none [])
    (by decide) (by decide)

/-! ### Helper lemmas about the collector walk -/

theorem mem_insertSet {x q : List String} {s : List (List String)} :
    q ∈ insertSet x s ↔ q = x ∨ q ∈ s := by
  unfold insertSet
  split
  · rename_i hxs
    constructor
    · exact fun h => Or.inr h
    · rintro (rfl | h)
      · exact hxs
      · exact h
  · simp [List.mem_cons]

theorem consistent_file_kind {kind : List String → Bool} {path : List String}
    {name : String} {size : Nat}
    (h : EntryConsistent kind path (FsEntry.file name size)) :
    kind path = false := by
  cases h
  assumption

theorem consistent_dir_kind {kind : List String → Bool} {path : List String}
    {name : String} {children : List FsEntry}
    (h : EntryConsistent kind path (FsEntry.dir name children)) :
    kind path = true := by
  cases h
  assumption

theorem consistent_dir_children {kind : List String → Bool}
    {path : List String} {name : String} {children : List FsEntry}
    (h : EntryConsistent kind path (FsEntry.dir name children)) :
    ∀ c ∈ children, EntryConsistent kind (path ++ [entryName c]) c := by
  cases h
  assumption

theorem walkStack_inv (ig kind : List String → Bool) (root : List String) :
    ∀ (fuel : Nat) (stack : List ((List String) × FsEntry)) (st : CollectorSt),
    (∀ e ∈ stack, (∃ r, e.1 = root ++ r) ∧ EntryConsistent kind e.1 e.2) →
    (∀ q ∈ st.files_to_instrument, kind q = false ∧ ∃ r, q = root ++ r) →
    (∀ q ∈ st.files_to_link_or_copy, kind q = false ∧ ∃ r, q = root ++ r) →
    (∀ q ∈ st.directories_to_link_or_copy, kind q = true ∧ ∃ r, q = root ++ r) →
    (∀ q ∈ (walkStack ig fuel stack st).files_to_instrument,
        kind q = false ∧ ∃ r, q = root ++ r) ∧
    (∀ q ∈ (walkStack ig fuel stack st).files_to_link_or_copy,
        kind q = false ∧ ∃ r, q = root ++ r) ∧
    (∀ q ∈ (walkStack ig fuel stack st).directories_to_link_or_copy,
        kind q = true ∧ ∃ r, q = root ++ r) := by
  intro fuel
  induction fuel with
  | zero => intro stack st _ h1 h2 h3; exact ⟨h1, h2, h3⟩
  | succ fuel ih =>
    intro stack st hstack h1 h2 h3
    cases stack with
    | nil => exact ⟨h1, h2, h3⟩
    | cons e rest =>
      obtain ⟨path, t⟩ := e
      obtain ⟨⟨r0, hr0⟩, hcons⟩ := hstack (path, t) (List.mem_cons_self _ _)
      dsimp only at hr0 hcons
      have hrest : ∀ e ∈ rest,
          (∃ r, e.1 = root ++ r) ∧ EntryConsistent kind e.1 e.2 :=
        fun e he => hstack e (List.mem_cons_of_mem _ he)
      cases t with
      | file name size =>
        have hkind : kind path = false := consistent_file_kind hcons
        have hw : walkStack ig (fuel + 1)
            ((path, FsEntry.file name size) :: rest) st =
            walkStack ig fuel rest (fileStep path name size st) := rfl
        rw [hw]
        refine ih rest (fileStep path name size st) hrest ?_ ?_ ?_
        · intro q hq
          by_cases hinstr : should_instrument_file name size = true
          · have hq' : q ∈ insertSet path st.files_to_instrument := by
              simpa [fileStep, hinstr] using hq
            rcases mem_insertSet.1 hq' with rfl | h
            · exact ⟨hkind, r0, hr0⟩
            · exact h1 q h
          · exact h1 q (by simpa [fileStep, hinstr] using hq)
        · intro q hq
          by_cases hinstr : should_instrument_file name size = true
          · exact h2 q (by simpa [fileStep, hinstr] using hq)
          · have hq' : q ∈ insertSet path st.files_to_link_or_copy := by
              simpa [fileStep, hinstr] using hq
            rcases mem_insertSet.1 hq' with rfl | h
            · exact ⟨hkind, r0, hr0⟩
            · exact h2 q h
        · intro q hq
          by_cases hinstr : should_instrument_file name size = true
          · exact h3 q (by simpa [fileStep, hinstr] using hq)
          · exact h3 q (by simpa [fileStep, hinstr] using hq)
      | dir name children =>
        have hkind : kind path = true := consistent_dir_kind hcons
        have hch := consistent_dir_children hcons
        have hw : walkStack ig (fuel + 1)
            ((path, FsEntry.dir name children) :: rest) st =
            walkStack ig fuel
              ((if ig path && should_explore_directory name then
                  (children.map (fun c => (path ++ [entryName c], c))).reverse
                else []) ++ rest)
              (if should_copy_or_link_directory name then
                { st with directories_to_link_or_copy :=
                    insertSet path st.directories_to_link_or_copy }
              else st) := rfl
        rw [hw]
        refine ih _ _ ?_ ?_ ?_ ?_
        · intro e he
          rcases List.mem_append.1 he with he | he
          · by_cases hex : (ig path && should_explore_directory name) = true
            · rw [if_pos hex, List.mem_reverse] at he
              obtain ⟨c, hc, rfl⟩ := List.mem_map.1 he
              exact ⟨⟨r0 ++ [entryName c], by simp [hr0]⟩, hch c hc⟩
            · rw [if_neg hex] at he
              simp at he
          · exact hrest e he
        · intro q hq
          by_cases hcl : should_copy_or_link_directory name = true
          · exact h1 q (by simpa [hcl] using hq)
          · exact h1 q (by simpa [hcl] using hq)
        · intro q hq
          by_cases hcl : should_copy_or_link_directory name = true
          · exact h2 q (by simpa [hcl] using hq)
          · exact h2 q (by simpa [hcl] using hq)
        · intro q hq
          by_cases hcl : should_copy_or_link_directory name = true
          · have hq' : q ∈ insertSet path st.directories_to_link_or_copy := by
              simpa [hcl] using hq
            rcases mem_insertSet.1 hq' with rfl | h
            · exact ⟨hkind, r0, hr0⟩
            · exact h3 q h
          · exact h3 q (by simpa [hcl] using hq)

/-! ### Theorem for claim C7 -/

/-- Claim C7: for every project tree that is kind-consistent (some assignment
of directory/file kind to paths fits the whole tree, as on a real filesystem
where no path is both), the Collected Items satisfy: no source path appears in
more than one of the three sets, and every entry's source extends
`project_root` with destination `ariana_dir ++ relpath(src, project_root)`. -/
theorem c7_collect_items_invariants (ig kind : List String → Bool)
    (project_root ariana_dir : List String) (root_entries : List FsEntry)
    (hwf : ∀ c ∈ root_entries,
      EntryConsistent kind (project_root ++ [entryName c]) c) :
    (∀ sd ∈ (collect_items ig project_root root_entries
        ariana_dir).directories_to_link_or_copy,
      (∀ sd2 ∈ (collect_items ig project_root root_entries
          ariana_dir).files_to_instrument, sd.1 ≠ sd2.1) ∧
      (∀ sd2 ∈ (collect_items ig project_root root_entries
          ariana_dir).files_to_link_or_copy, sd.1 ≠ sd2.1)) ∧
    (∀ sd ∈ (collect_items ig project_root root_entries
        ariana_dir).files_to_instrument,
      ∀ sd2 ∈ (collect_items ig project_root root_entries
          ariana_dir).files_to_link_or_copy, sd.1 ≠ sd2.1) ∧
    (∀ sd ∈ (collect_items ig project_root root_entries
        ariana_dir).directories_to_link_or_copy,
      sd.1 = project_root ++ sd.1.drop project_root.length ∧
      sd.2 = ariana_dir ++ sd.1.drop project_root.length) ∧
    (∀ sd ∈ (collect_items ig project_root root_entries
        ariana_dir).files_to_instrument,
      sd.1 = project_root ++ sd.1.drop project_root.length ∧
      sd.2 = ariana_dir ++ sd.1.drop project_root.length) ∧
    (∀ sd ∈ (collect_items ig project_root root_entries
        ariana_dir).files_to_link_or_copy,
      sd.1 = project_root ++ sd.1.drop project_root.length ∧
      sd.2 = ariana_dir ++ sd.1.drop project_root.length) := by
  set st := walkStack ig ((root_entries.map entrySize).sum + 1)
    ((root_entries.map (fun c => (project_root ++ [entryName c], c))).reverse)
    (CollectorSt.mk [] [] [] []) with hstdef
  have hstack0 : ∀ e ∈ (root_entries.map
      (fun c => (project_root ++ [entryName c], c))).reverse,
      (∃ r, e.1 = project_root ++ r) ∧ EntryConsistent kind e.1 e.2 := by
    intro e he
    rw [List.mem_reverse] at he
    obtain ⟨c, hc, rfl⟩ := List.mem_map.1 he
    exact ⟨⟨[entryName c], rfl⟩, hwf c hc⟩
  obtain ⟨hfti, hflc, hdirs⟩ :=
    walkStack_inv ig kind project_root ((root_entries.map entrySize).sum + 1)
      ((root_entries.map (fun c => (project_root ++ [entryName c], c))).reverse)
      (CollectorSt.mk [] [] [] [])
      hstack0 (by intro q hq; exact absurd hq (List.not_mem_nil q))
      (by intro q hq; exact absurd hq (List.not_mem_nil q))
      (by intro q hq; exact absurd hq (List.not_mem_nil q))
  rw [← hstdef] at hfti hflc hdirs
  have hitems : collect_items ig project_root root_entries ariana_dir =
      CollectedItems.mk
        ((st.directories_to_link_or_copy.filter
          (fun p => p ∉ st.parents_of_files)).map
          (fun src => (src, compute_dest_path src project_root ariana_dir)))
        (st.files_to_instrument.map
          (fun src => (src, compute_dest_path src project_root ariana_dir)))
        ((st.files_to_link_or_copy.filter
          (fun p => p ∉ st.files_to_instrument)).map
          (fun src => (src, compute_dest_path src project_root ariana_dir))) :=
    rfl
  have hshape : ∀ (src : List String), (∃ r, src = project_root ++ r) →
      src = project_root ++ src.drop project_root.length := by
    rintro src ⟨r, rfl⟩
    rw [List.drop_left]
  rw [hitems]
  refine ⟨?_, ?_, ?_, ?_, ?_⟩
  · intro sd hsd
    obtain ⟨src, hsrc, rfl⟩ := List.mem_map.1 hsd
    have hsrc' : src ∈ st.directories_to_link_or_copy :=
      (List.mem_filter.1 hsrc).1
    constructor
    · intro sd2 hsd2
      obtain ⟨src2, hsrc2, rfl⟩ := List.mem_map.1 hsd2
      intro heq
      simp only at heq
      subst heq
      have htrue := (hdirs src hsrc').1
      have hfalse := (hfti src hsrc2).1
      rw [htrue] at hfalse
      exact absurd hfalse (by simp)
    · intro sd2 hsd2
      obtain ⟨src2, hsrc2, rfl⟩ := List.mem_map.1 hsd2
      have hsrc2' : src2 ∈ st.files_to_link_or_copy :=
        (List.mem_filter.1 hsrc2).1
      intro heq
      simp only at heq
      subst heq
      have htrue := (hdirs src hsrc').1
      have hfalse := (hflc src hsrc2').1
      rw [htrue] at hfalse
      exact absurd hfalse (by simp)
  · intro sd hsd sd2 hsd2
    obtain ⟨src, hsrc, rfl⟩ := List.mem_map.1 hsd
    obtain ⟨src2, hsrc2, rfl⟩ := List.mem_map.1 hsd2
    have hnot : src2 ∉ st.files_to_instrument := by
      have := (List.mem_filter.1 hsrc2).2
      simpa using this
    intro heq
    simp only at heq
    subst heq
    exact hnot hsrc
  · intro sd hsd
    obtain ⟨src, hsrc, rfl⟩ := List.mem_map.1 hsd
    have hsrc' : src ∈ st.directories_to_link_or_copy :=
      (List.mem_filter.1 hsrc).1
    exact ⟨hshape src (hdirs src hsrc').2, rfl⟩
  · intro sd hsd
    obtain ⟨src, hsrc, rfl⟩ := List.mem_map.1 hsd
    exact ⟨hshape src (hfti src hsrc).2, rfl⟩
  · intro sd hsd
    obtain ⟨src, hsrc, rfl⟩ := List.mem_map.1 hsd
    have hsrc' : src ∈ st.files_to_link_or_copy :=
      (List.mem_filter.1 hsrc).1
    exact ⟨hshape src (hflc src hsrc').2, rfl⟩

/-- Witness for C7: a one-file tree `r/a.js` with the trivial ignore oracle
and the all-file kind assignment; the consistency hypothesis is an explicit
derivation and the destination formula is obtained for the
files-to-instrument set. -/
theorem c7_collect_items_invariants_witness :
    (∀ c ∈ [FsEntry.file "a.js" 10],
      EntryConsistent (fun _ => false) (["r"] ++ [entryName c]) c) ∧
    (∀ sd ∈ (collect_items (fun _ => true) ["r"] [FsEntry.file "a.js" 10]
        ["r", ".ariana"]).files_to_instrument,
      sd.1 = ["r"] ++ sd.1.drop (["r"] : List String).length ∧
      sd.2 = ["r", ".ariana"] ++ sd.1.drop (["r"] : List String).length) :=
  ⟨List.forall_mem_singleton.mpr (EntryConsistent.file _ _ _ rfl),
    (c7_collect_items_invariants (fun _ => true) (fun _ => false) ["r"]
      ["r", ".ariana"] [FsEntry.file "a.js" 10]
      (List.forall_mem_singleton.mpr
        (EntryConsistent.file _ _ _ rfl))).2.2.2.1⟩

end Ariana
